import Mathlib

/-!
# Verification of `graph_analysis.py`

A shallow embedding of the graph-analysis script: an undirected attributed
graph is a list of nodes (with optional `color` attribute) and a list of
edges (with optional `sign` attribute).  Each analysis function of the
script is translated into an executable Lean definition, and the testable
properties of the specification are proved about those definitions.
-/

namespace GraphAnalysis

/-! ## Definitions: the embedded data model and the analysis functions of the script -/

/-- A node of the graph: an identifier plus the optional `color` attribute. -/
structure Node where
  id : Nat
  color : Option Nat
deriving DecidableEq, Repr

/-- An edge of the undirected graph: the two stored endpoints plus the
optional `sign` attribute. -/
structure Edge where
  s : Nat
  t : Nat
  sign : Option Int
deriving DecidableEq, Repr

/-- An undirected attributed graph, as a node list and an edge list
(mirroring the networkx `Graph` adjacency structure). -/
structure Graph where
  nodes : List Node
  edges : List Edge
deriving DecidableEq, Repr

/-- The list of node identifiers. -/
def nodeIds (G : Graph) : List Nat := G.nodes.map Node.id

/-- `G.neighbors(u)`: the opposite endpoints of all edges incident to `u`. -/
def neighbors (G : Graph) (u : Nat) : List Nat :=
  (G.edges.filter (fun e => e.s == u)).map Edge.t ++
    (G.edges.filter (fun e => e.t == u)).map Edge.s

/-- Adjacency: some stored edge joins `u` and `v` (in either orientation). -/
def adjP (G : Graph) (u v : Nat) : Prop :=
  ∃ e ∈ G.edges, (e.s = u ∧ e.t = v) ∨ (e.s = v ∧ e.t = u)

/-- The stored edge joining `u` and `v`, if any (the edge-data lookup
`G[u][v]`). -/
def edgeBetween (G : Graph) (u v : Nat) : Option Edge :=
  G.edges.find? (fun e => (e.s == u && e.t == v) || (e.s == v && e.t == u))

/-- `int(G[u][v].get('sign', 1))`: the sign of the edge joining `u` and `v`,
defaulting to `1` when the attribute is absent. -/
def signVal (G : Graph) (u v : Nat) : Int :=
  match edgeBetween G u v with
  | some e => e.sign.getD 1
  | none => 1

/-- `1 if sign >= 0 else -1`. -/
def psign (s : Int) : Int := if 0 ≤ s then 1 else -1

/-- The inner `for v in G.neighbors(u)` loop of `balance`: propagate the
label of `u` to each neighbour, enqueueing newly labelled nodes, and fail
(`none`, the `return False` of the source) on a label mismatch. -/
def scanNeighbors (G : Graph) (u : Nat) (lu : Int) :
    List Nat → List (Nat × Int) → List Nat → Option (List (Nat × Int) × List Nat)
  | [], label, q => some (label, q)
  | v :: vs, label, q =>
    let ex := lu * psign (signVal G u v)
    match label.lookup v with
    | none => scanNeighbors G u lu vs ((v, ex) :: label) (q ++ [v])
    | some lv => if lv = ex then scanNeighbors G u lu vs label q else none

/-- The `while q` loop of `balance`, with explicit fuel (the source loop
terminates because every node is enqueued at most once). -/
def bfsLoop (G : Graph) : Nat → List (Nat × Int) → List Nat → Option (List (Nat × Int))
  | _, label, [] => some label
  | 0, _, _ :: _ => none
  | fuel + 1, label, u :: q =>
    match label.lookup u with
    | none => none
    | some lu =>
      match scanNeighbors G u lu (neighbors G u) label q with
      | none => none
      | some (label', q') => bfsLoop G fuel label' q'

/-- The outer `for s in G.nodes()` loop of `balance`: seed every still
unlabelled node with label `1` and run the BFS two-colouring from it. -/
def balanceLoop (G : Graph) : List Node → List (Nat × Int) → Option (List (Nat × Int))
  | [], label => some label
  | n :: ns, label =>
    match label.lookup n.id with
    | some _ => balanceLoop G ns label
    | none =>
      match bfsLoop G G.nodes.length ((n.id, 1) :: label) [n.id] with
      | none => none
      | some label' => balanceLoop G ns label'

/-- `balance(G)` of the source: BFS two-colouring over all components,
`True` iff no sign-forced label mismatch is found. -/
def balance (G : Graph) : Bool :=
  (balanceLoop G G.nodes []).isSome

/-- Two edges with the same unordered endpoint pair. -/
def sameEnds (e f : Edge) : Prop :=
  (e.s = f.s ∧ e.t = f.t) ∨ (e.s = f.t ∧ e.t = f.s)

/-- Well-formedness of the embedding of a networkx `Graph`: node ids are
distinct, edge endpoints are nodes, and no two stored edges join the same
unordered pair. -/
def WF (G : Graph) : Prop :=
  (nodeIds G).Nodup ∧
    (∀ e ∈ G.edges, e.s ∈ nodeIds G ∧ e.t ∈ nodeIds G) ∧
    G.edges.Pairwise (fun e f => ¬ sameEnds e f)

/-- An assignment of `+1 / -1` labels to the nodes. -/
def IsPM (σ : Nat → Int) : Prop := ∀ n, σ n = 1 ∨ σ n = -1

/-- The claim's per-edge condition: a non-negatively signed edge joins
same-labelled nodes, a negatively signed edge differently-labelled ones
(a missing sign reads as `1`). -/
def EdgeOK (σ : Nat → Int) (e : Edge) : Prop :=
  if 0 ≤ e.sign.getD 1 then σ e.s = σ e.t else σ e.s ≠ σ e.t

/-- Structural balance as the specification states it. -/
def Balanced (G : Graph) : Prop :=
  ∃ σ : Nat → Int, IsPM σ ∧ ∀ e ∈ G.edges, EdgeOK σ e

instance (e f : Edge) : Decidable (sameEnds e f) := by
  unfold sameEnds; infer_instance

instance (G : Graph) : Decidable (WF G) := by
  unfold WF; infer_instance

/-- The keys of a label map. -/
def keysOf (label : List (Nat × Int)) : List Nat := label.map Prod.fst

/-- Label-map extension: every binding present stays present. -/
def Ext (l l' : List (Nat × Int)) : Prop :=
  ∀ a v, l.lookup a = some v → l'.lookup a = some v

/-- Basic state invariant of the BFS two-colouring: labelled keys are
distinct node ids carrying `±1` values, and the queue holds distinct
labelled nodes. -/
def InvB (G : Graph) (label : List (Nat × Int)) (q : List Nat) : Prop :=
  (keysOf label).Nodup ∧
    (∀ p ∈ label, p.1 ∈ nodeIds G ∧ (p.2 = 1 ∨ p.2 = -1)) ∧
    (∀ u ∈ q, u ∈ keysOf label) ∧
    q.Nodup

/-- Processed-node invariant: every labelled node that is no longer queued
has had each of its neighbours labelled consistently with its own label. -/
def InvC (G : Graph) (label : List (Nat × Int)) (q : List Nat) : Prop :=
  ∀ u lu, label.lookup u = some lu → u ∉ q →
    ∀ v, adjP G u v → label.lookup v = some (lu * psign (signVal G u v))

/-- σ-consistency: labels of nodes in a common component agree with the
balanced assignment `σ` up to a component-wide flip. -/
def InvS (G : Graph) (σ : Nat → Int) (label : List (Nat × Int)) : Prop :=
  ∀ u v lu lv, label.lookup u = some lu → label.lookup v = some lv →
    Relation.ReflTransGen (adjP G) u v → lu * σ u = lv * σ v

/-- What a successful neighbour scan guarantees about the updated label map
and queue. -/
structure ScanSpec (G : Graph) (u : Nat) (lu : Int) (vs : List Nat)
    (label : List (Nat × Int)) (q : List Nat)
    (label' : List (Nat × Int)) (q' : List Nat) : Prop where
  ext : Ext label label'
  keysNodup : (keysOf label').Nodup
  qNodup : q'.Nodup
  qKeys : ∀ w ∈ q', w ∈ keysOf label'
  count : label'.length + q.length = label.length + q'.length
  newQ : ∃ new, q' = q ++ new ∧ ∀ w ∈ new, w ∉ keysOf label
  entries : ∀ p ∈ label', p ∈ label ∨ (p.1 ∈ vs ∧ p.2 = lu * psign (signVal G u p.1))
  scanned : ∀ v ∈ vs, label'.lookup v = some (lu * psign (signVal G u v))
  keysQ : ∀ w ∈ keysOf label', w ∈ keysOf label ∨ w ∈ q'

/-- A concrete signed triangle (two negative edges): used to witness the
hypotheses of the balance theorems. -/
def triangleTwoNeg : Graph :=
  ⟨[⟨0, none⟩, ⟨1, none⟩, ⟨2, none⟩],
    [⟨0, 1, some 1⟩, ⟨1, 2, some (-1)⟩, ⟨0, 2, some (-1)⟩]⟩

/-- A concrete unsigned path graph. -/
def pathNoSign : Graph :=
  ⟨[⟨0, none⟩, ⟨1, none⟩, ⟨2, none⟩], [⟨0, 1, none⟩, ⟨1, 2, none⟩]⟩

/-- `set(G.neighbors(u))`. -/
def nbrSet (G : Graph) (u : Nat) : Finset Nat := (neighbors G u).toFinset

/-- The per-edge neighbourhood-overlap value of `overlap`:
`Nu, Nv = set(G.neighbors(u)) - {v}, set(G.neighbors(v)) - {u}`,
`0 if len(Nu | Nv) == 0 else len(Nu & Nv) / len(Nu | Nv)`. -/
def overlapVal (G : Graph) (u v : Nat) : ℚ :=
  let Nu := nbrSet G u \ {v}
  let Nv := nbrSet G v \ {u}
  let d := (Nu ∪ Nv).card
  if d = 0 then 0 else (Nu ∩ Nv).card / d

/-- `overlap(G)`: the mapping from each stored edge to its neighbourhood
overlap, which the source stores as the `no` edge attribute. -/
def overlap (G : Graph) : List ((Nat × Nat) × ℚ) :=
  G.edges.map (fun e => ((e.s, e.t), overlapVal G e.s e.t))

/-- `G.degree(u)`: incident half-edges (a self-loop counts twice, as in
networkx). -/
def degree (G : Graph) (u : Nat) : Nat := (neighbors G u).length

/-- The `color` attribute of node `u`, if the node exists and carries one. -/
def colorOf (G : Graph) (u : Nat) : Option Nat :=
  match G.nodes.find? (fun n => n.id == u) with
  | some n => n.color
  | none => none

/-- `sim = -abs(G.degree(u) - G.degree(v))`. -/
def simVal (G : Graph) (u v : Nat) : Int :=
  -(((degree G u : Int) - (degree G v : Int)).natAbs : Int)

/-- The edge loop of `homophily`: split the per-edge similarity scores into
the same-colour and different-colour groups, skipping edges with a missing
`color` on either endpoint. -/
def sameDiffLists (G : Graph) : List Int × List Int :=
  G.edges.foldl
    (fun (acc : List Int × List Int) e =>
      match colorOf G e.s, colorOf G e.t with
      | some cu, some cv =>
        if cu = cv then (acc.1 ++ [simVal G e.s e.t], acc.2)
        else (acc.1, acc.2 ++ [simVal G e.s e.t])
      | _, _ => acc)
    ([], [])

/-- Result of `homophily`: either `{'error': 'not enough data'}` or the
`{'t': .., 'p': .., 'd': ..}` statistics dictionary. -/
inductive HomophilyResult where
  | insufficient : HomophilyResult
  | stats (t p d : ℚ) : HomophilyResult
deriving DecidableEq, Repr

/-- `np.mean` over the integer similarity scores, as an exact rational. -/
def meanQ (xs : List Int) : ℚ := ((xs.sum : Int) : ℚ) / xs.length

/-- `np.var(xs, ddof=1)`: the sample variance, as an exact rational. -/
def varQ (xs : List Int) : ℚ :=
  (xs.map (fun x => ((x : ℚ) - meanQ xs) ^ 2)).sum / ((xs.length : ℚ) - 1)

/-- `round(q, k)` (modelled with Lean's `round`; float tie-breaking is
abstracted away together with the floats themselves). -/
def pyRound (q : ℚ) (k : Nat) : ℚ := ((round (q * 10 ^ k) : Int) : ℚ) / 10 ^ k

/-- `homophily(G)`.  The library calls without integer content are passed
in as functions: `ttest` is `scipy.stats.ttest_ind(..., equal_var=False)`
and `sqrtQ` is `math.sqrt`. -/
def homophily (ttest : List Int → List Int → ℚ × ℚ) (sqrtQ : ℚ → ℚ)
    (G : Graph) : HomophilyResult :=
  let same := (sameDiffLists G).1
  let diff := (sameDiffLists G).2
  if same.length < 2 ∨ diff.length < 2 then .insufficient
  else
    let tp := ttest same diff
    let pooled := (((same.length : ℚ) - 1) * varQ same +
      ((diff.length : ℚ) - 1) * varQ diff) / ((same.length : ℚ) + diff.length - 2)
    let d := (meanQ same - meanQ diff) / max (1 / 10 ^ 9) (sqrtQ pooled)
    .stats (pyRound tp.1 3) (pyRound tp.2 4) (pyRound d 3)

/-- The queue/visited BFS used by `nx.connected_components` (fuelled; the
fuel `G.nodes.length` suffices since each node is enqueued at most once). -/
def bfsReach (G : Graph) : Nat → List Nat → List Nat → List Nat
  | 0, _, visited => visited
  | _ + 1, [], visited => visited
  | fuel + 1, u :: q, visited =>
    let new := ((neighbors G u).filter (fun v => !(visited.contains v))).dedup
    bfsReach G fuel (q ++ new) (visited ++ new)

/-- The connected component containing `s`. -/
def componentOf (G : Graph) (s : Nat) : List Nat :=
  bfsReach G G.nodes.length [s] [s]

/-- Components in first-seen order, as `nx.connected_components` yields
them. -/
def componentsAux (G : Graph) : List Node → List Nat → List (List Nat)
  | [], _ => []
  | n :: rest, seen =>
    if n.id ∈ seen then componentsAux G rest seen
    else componentOf G n.id :: componentsAux G rest (seen ++ componentOf G n.id)

def connectedComponents (G : Graph) : List (List Nat) :=
  componentsAux G G.nodes []

/-- `G.subgraph(c)`: restrict nodes and edges to the node set `c`. -/
def subgraphOn (G : Graph) (c : List Nat) : Graph :=
  ⟨G.nodes.filter (fun n => c.contains n.id),
    G.edges.filter (fun e => c.contains e.s && c.contains e.t)⟩

/-- BFS layers recording distances from the source. -/
def bfsDistAux (G : Graph) : Nat → List (Nat × Nat) → List (Nat × Nat) → List (Nat × Nat)
  | 0, _, dist => dist
  | _ + 1, [], dist => dist
  | fuel + 1, (u, du) :: q, dist =>
    let new := ((neighbors G u).filter
      (fun v => !((dist.map Prod.fst).contains v))).dedup
    bfsDistAux G fuel (q ++ new.map (fun v => (v, du + 1)))
      (dist ++ new.map (fun v => (v, du + 1)))

/-- Single-source shortest-path distances (unit weights). -/
def bfsDist (G : Graph) (s : Nat) : List (Nat × Nat) :=
  bfsDistAux G G.nodes.length [(s, 0)] [(s, 0)]

/-- `nx.average_shortest_path_length` on a connected graph:
`sum of pairwise distances / (n (n - 1))`. -/
def asplQ (G : Graph) : ℚ :=
  let total : Nat := (G.nodes.map (fun a => ((bfsDist G a.id).map Prod.snd).sum)).sum
  (total : ℚ) / ((G.nodes.length : ℚ) * ((G.nodes.length : ℚ) - 1))

/-- The `{'aspl', 'n', 'sizes'}` record of `stats`. -/
structure StatsR where
  aspl : Option ℚ
  n : Nat
  sizes : List Nat
deriving DecidableEq, Repr

/-- `stats(G)`: component count and sizes, plus the average shortest path
length of the largest (first-maximal) component when it has an edge. -/
def stats (G : Graph) : StatsR :=
  match h : connectedComponents G with
  | [] => ⟨none, 0, []⟩
  | c :: cs =>
    let LCC := cs.foldl (fun best c' => if c'.length > best.length then c' else best) c
    let H := subgraphOn G LCC
    ⟨if H.edges.length > 0 then some (asplQ H) else none,
      (c :: cs).length, (c :: cs).map List.length⟩

/-- Does the unordered pair `p` name the stored edge `e`
(`nx.Graph.remove_edges_from` matches either orientation)? -/
def pairMatches (p : Nat × Nat) (e : Edge) : Bool :=
  (e.s == p.1 && e.t == p.2) || (e.s == p.2 && e.t == p.1)

/-- `H.remove_edges_from(rem)`. -/
def removeEdges (G : Graph) (rem : List (Nat × Nat)) : Graph :=
  ⟨G.nodes, G.edges.filter (fun e => !(rem.any (fun p => pairMatches p e)))⟩

/-- What `random.sample(list(G.edges()), min(k, len(edges)))` delivers:
`min k |E|` stored edges, pairwise distinct as unordered pairs. -/
def validSample (G : Graph) (k : Nat) (rem : List (Nat × Nat)) : Prop :=
  rem.length = min k G.edges.length ∧
    (∀ p ∈ rem, ∃ e ∈ G.edges, p = (e.s, e.t)) ∧
    rem.Pairwise (fun p q => ¬(p = q ∨ p = (q.2, q.1)))

instance (G : Graph) (k : Nat) (rem : List (Nat × Nat)) :
    Decidable (validSample G k rem) := by
  unfold validSample; infer_instance

/-- `simulate_failures(G, k)`: statistics before and after removing the
sampled edges `rem` from a copy of `G`. -/
def simulate_failures (G : Graph) (k : Nat) (rem : List (Nat × Nat)) :
    StatsR × StatsR :=
  (stats G, stats (removeEdges G rem))

/-- `robustness(G, k, trials)`, with the random edge sample of each trial
passed in explicitly: the average over the trials of the component count
after removal (`0` when there are no trials). -/
def robustness (G : Graph) (k : Nat) (samples : List (List (Nat × Nat))) : ℚ :=
  let res := samples.map (fun rem => ((stats (removeEdges G rem)).n : ℚ))
  if res.isEmpty then 0 else res.sum / res.length

/-- State-passing form of `simulate_failures`: the first component is the
state of the input graph object when the call returns (the code mutates
only the copy `H = G.copy()`). -/
def simulate_failures_st (G : Graph) (k : Nat) (rem : List (Nat × Nat)) :
    Graph × StatsR × StatsR :=
  let before := stats G
  let H : Graph := ⟨G.nodes, G.edges⟩
  let after := stats (removeEdges H rem)
  (G, before, after)

/-- State-passing form of `robustness`: each trial copies `G` afresh. -/
def robustness_st (G : Graph) (k : Nat) (samples : List (List (Nat × Nat))) :
    Graph × ℚ :=
  (G, robustness G k samples)

/-- A concrete coloured graph (a 4-cycle with two colour classes): witness
input for the overlap and homophily theorems. -/
def fourCycle : Graph :=
  ⟨[⟨0, some 1⟩, ⟨1, some 1⟩, ⟨2, some 2⟩, ⟨3, some 2⟩],
    [⟨0, 1, none⟩, ⟨1, 2, none⟩, ⟨2, 3, none⟩, ⟨3, 0, none⟩]⟩

/-- A concrete path graph with an isolated extra node: witness input for
the failure-simulation theorems. -/
def pathPlusIsolated : Graph :=
  ⟨[⟨0, none⟩, ⟨1, none⟩, ⟨2, none⟩, ⟨3, none⟩], [⟨0, 1, none⟩, ⟨1, 2, none⟩]⟩

/-- `girvan_newman_partition(G, n)` with the library generator
`networkx.algorithms.community.girvan_newman` abstracted as the list of
its yields (for an edgeless graph, the single yield is the list of
connected components).  The source takes the first yield, then advances a
fresh generator `n - 1` times, swallowing exhaustion, so it returns the
yield of index `min (max (n-1) 1) L - 1`. -/
def girvan_newman_partition (yields : List (List (List Nat))) (n : Nat) :
    List (List Nat) :=
  yields.getD (min (max (n - 1) 1) yields.length - 1) []

/-- Outcome of `load_graph`: the fatal `FileNotFoundError`, or the loaded
graph together with whether the `[warn] Empty graph` warning fired. -/
inductive LoadResult where
  | fileNotFound (path : String) : LoadResult
  | loaded (warnEmpty : Bool) (G : Graph) : LoadResult
deriving DecidableEq, Repr

/-- `load_graph(path)` with the filesystem probe (`os.path.exists`) and the
GML reader (`nx.read_gml` plus the directed-to-undirected coercion)
abstracted as functions. -/
def load_graph (pathExists : String → Bool) (readGml : String → Graph)
    (path : String) : LoadResult :=
  if pathExists path then
    .loaded ((readGml path).nodes.length == 0) (readGml path)
  else .fileNotFound path

/-- One parsed CSV row: `(timestamp, source, target, action.lower())`.
The float timestamp is carried exactly as a rational; node labels are the
embedding's numeric ids. -/
structure Event where
  t : ℚ
  source : Nat
  target : Nat
  action : String
deriving DecidableEq, Repr

/-- The Python tuple-comparison key of an event: lexicographic on
timestamp, source, target, action. -/
def evKey (e : Event) : Lex (ℚ × Lex (Nat × Lex (Nat × List Char))) :=
  toLex (e.t, toLex (e.source, toLex (e.target, e.action.data)))

def evLe (a b : Event) : Bool := decide (evKey a ≤ evKey b)

/-- Insert an event into a sorted event list (tuple order).  Two events
comparing equal under `evLe` in both directions are the same tuple, so any
sort by this total order returns what Python's stable `sorted` does. -/
def insertEv (e : Event) : List Event → List Event
  | [] => [e]
  | f :: rest => if evLe e f then e :: f :: rest else f :: insertEv e rest

/-- `parse_csv`: the parsed rows in `sorted(ev)` order. -/
def parse_csv (rows : List Event) : List Event := rows.foldr insertEv []

def hasEdgeB (G : Graph) (u v : Nat) : Bool :=
  G.edges.any (fun e => (e.s == u && e.t == v) || (e.s == v && e.t == u))

/-- `nx.Graph.add_edge` inserts missing endpoints as attribute-free nodes. -/
def addNodeIfAbsent (G : Graph) (u : Nat) : Graph :=
  if (G.nodes.map Node.id).contains u then G else ⟨G.nodes ++ [⟨u, none⟩], G.edges⟩

def addEdge (G : Graph) (u v : Nat) : Graph :=
  let G₁ := addNodeIfAbsent (addNodeIfAbsent G u) v
  if hasEdgeB G₁ u v then G₁ else ⟨G₁.nodes, G₁.edges ++ [⟨u, v, none⟩]⟩

def removeEdge (G : Graph) (u v : Nat) : Graph :=
  ⟨G.nodes,
    G.edges.filter (fun e => !((e.s == u && e.t == v) || (e.s == v && e.t == u)))⟩

/-- The body of the event loop of `temporal`: add the edge on `add`,
remove it on `remove` when present, otherwise leave the graph unchanged. -/
def applyEvent (G : Graph) (ev : Event) : Graph :=
  if ev.action == "add" then addEdge G ev.source ev.target
  else if ev.action == "remove" && hasEdgeB G ev.source ev.target then
    removeEdge G ev.source ev.target
  else G

/-- The snapshot list built by `temporal` (one copy of the graph appended
after each event). -/
def temporalSnaps (G : Graph) (rows : List Event) : List Graph :=
  ((parse_csv rows).foldl
    (fun (acc : Graph × List Graph) e =>
      (applyEvent acc.1 e, acc.2 ++ [applyEvent acc.1 e]))
    (G, [])).2

/-- `temporal(G, path)` returns `len(ev)`. -/
def temporal (G : Graph) (rows : List Event) : Nat := (parse_csv rows).length

/-- Reference form of the snapshot list. -/
def snapList (G : Graph) : List Event → List Graph
  | [] => []
  | e :: rest => applyEvent G e :: snapList (applyEvent G e) rest

/-- A small concrete event log (out of order in the CSV). -/
def sampleRows : List Event :=
  [⟨2, 0, 1, "add"⟩, ⟨1, 1, 2, "add"⟩, ⟨3, 1, 2, "remove"⟩]

/-! ## Theorems -/

theorem lookup_cons_self (l : List (Nat × Int)) (k : Nat) (v : Int) :
    ((k, v) :: l).lookup k = some v := by
  simp [List.lookup]

theorem lookup_cons_ne (l : List (Nat × Int)) (k a : Nat) (v : Int) (h : a ≠ k) :
    ((k, v) :: l).lookup a = l.lookup a := by
  have hb : (a == k) = false := beq_eq_false_iff_ne.mpr h
  simp [List.lookup, hb]

theorem lookup_mem {label : List (Nat × Int)} {a : Nat} {v : Int}
    (h : label.lookup a = some v) : (a, v) ∈ label := by
  induction label with
  | nil => simp [List.lookup] at h
  | cons p l ih =>
    obtain ⟨k, w⟩ := p
    by_cases hk : a = k
    · subst hk
      rw [lookup_cons_self] at h
      exact (Option.some_inj.1 h) ▸ List.mem_cons_self _ _
    · rw [lookup_cons_ne _ _ _ _ hk] at h
      exact List.mem_cons_of_mem _ (ih h)

theorem mem_keysOf {label : List (Nat × Int)} {a : Nat} :
    a ∈ keysOf label ↔ ∃ v, label.lookup a = some v := by
  induction label with
  | nil => simp [keysOf, List.lookup]
  | cons p l ih =>
    obtain ⟨k, w⟩ := p
    by_cases hk : a = k
    · subst hk; simp [keysOf, lookup_cons_self]
    · have hmem : a ∈ keysOf ((k, w) :: l) ↔ a ∈ keysOf l := by
        simp [keysOf, hk]
      rw [hmem, lookup_cons_ne _ _ _ _ hk, ih]

theorem lookup_eq_none_iff {label : List (Nat × Int)} {a : Nat} :
    label.lookup a = none ↔ a ∉ keysOf label := by
  rw [mem_keysOf]
  cases h : label.lookup a <;> simp [h]

theorem Ext.rfl (l : List (Nat × Int)) : Ext l l := fun _ _ h => h

theorem Ext.comp {l₁ l₂ l₃ : List (Nat × Int)} (h : Ext l₁ l₂) (h' : Ext l₂ l₃) :
    Ext l₁ l₃ := fun a v ha => h' a v (h a v ha)

theorem Ext.cons_fresh {l : List (Nat × Int)} {k : Nat} (v : Int)
    (h : l.lookup k = none) : Ext l ((k, v) :: l) := by
  intro a w ha
  have hak : a ≠ k := by rintro rfl; rw [h] at ha; cases ha
  rw [lookup_cons_ne _ _ _ _ hak]; exact ha

theorem Ext.mem_keys {l l' : List (Nat × Int)} (h : Ext l l') {a : Nat}
    (ha : a ∈ keysOf l) : a ∈ keysOf l' := by
  obtain ⟨v, hv⟩ := mem_keysOf.1 ha
  exact mem_keysOf.2 ⟨v, h a v hv⟩

theorem adjP_symm {G : Graph} {u v : Nat} (h : adjP G u v) : adjP G v u := by
  obtain ⟨e, he, hor⟩ := h
  exact ⟨e, he, hor.symm⟩

theorem mem_neighbors {G : Graph} {u v : Nat} :
    v ∈ neighbors G u ↔ adjP G u v := by
  simp only [neighbors, adjP, List.mem_append, List.mem_map, List.mem_filter,
    beq_iff_eq]
  constructor
  · rintro (⟨e, ⟨he, hs⟩, ht⟩ | ⟨e, ⟨he, ht⟩, hs⟩)
    · exact ⟨e, he, Or.inl ⟨hs, ht⟩⟩
    · exact ⟨e, he, Or.inr ⟨hs, ht⟩⟩
  · rintro ⟨e, he, ⟨hs, ht⟩ | ⟨hs, ht⟩⟩
    · exact Or.inl ⟨e, ⟨he, hs⟩, ht⟩
    · exact Or.inr ⟨e, ⟨he, ht⟩, hs⟩

theorem find?_pairwise {l : List Edge}
    (hpw : l.Pairwise (fun e f => ¬ sameEnds e f)) {e : Edge} (he : e ∈ l)
    {u v : Nat} (h : (e.s = u ∧ e.t = v) ∨ (e.s = v ∧ e.t = u)) :
    l.find? (fun f => (f.s == u && f.t == v) || (f.s == v && f.t == u)) = some e := by
  induction l with
  | nil => cases he
  | cons f l ih =>
    obtain ⟨hhead, htail⟩ := List.pairwise_cons.1 hpw
    rcases List.mem_cons.1 he with rfl | he'
    · have hp : ((e.s == u && e.t == v) || (e.s == v && e.t == u)) = true := by
        rcases h with ⟨h1, h2⟩ | ⟨h1, h2⟩ <;> simp [h1, h2]
      simp [List.find?, hp]
    · have hp : ((f.s == u && f.t == v) || (f.s == v && f.t == u)) = false := by
        by_contra hcon
        have hmatch : (f.s = u ∧ f.t = v) ∨ (f.s = v ∧ f.t = u) := by
          rcases Bool.or_eq_true_iff.1 (Bool.of_not_eq_false hcon) with hm | hm
          · obtain ⟨h1, h2⟩ := Bool.and_eq_true_iff.1 hm
            exact Or.inl ⟨beq_iff_eq.1 h1, beq_iff_eq.1 h2⟩
          · obtain ⟨h1, h2⟩ := Bool.and_eq_true_iff.1 hm
            exact Or.inr ⟨beq_iff_eq.1 h1, beq_iff_eq.1 h2⟩
        have : sameEnds f e := by
          unfold sameEnds
          rcases hmatch with ⟨h1, h2⟩ | ⟨h1, h2⟩ <;>
            rcases h with ⟨h3, h4⟩ | ⟨h3, h4⟩ <;>
              [exact Or.inl ⟨h1.trans h3.symm, h2.trans h4.symm⟩;
               exact Or.inr ⟨h1.trans h4.symm, h2.trans h3.symm⟩;
               exact Or.inr ⟨h1.trans h4.symm, h2.trans h3.symm⟩;
               exact Or.inl ⟨h1.trans h3.symm, h2.trans h4.symm⟩]
        exact hhead e he' this
      rw [List.find?_cons_of_neg _ (by simp [hp]), ih htail he']

theorem signVal_adj {G : Graph} (hwf : WF G) {e : Edge} (he : e ∈ G.edges)
    {u v : Nat} (h : (e.s = u ∧ e.t = v) ∨ (e.s = v ∧ e.t = u)) :
    signVal G u v = e.sign.getD 1 := by
  unfold signVal edgeBetween
  rw [find?_pairwise hwf.2.2 he h]

theorem psign_pm (s : Int) : psign s = 1 ∨ psign s = -1 := by
  unfold psign; split <;> simp

theorem pm_mul {a b : Int} (ha : a = 1 ∨ a = -1) (hb : b = 1 ∨ b = -1) :
    a * b = 1 ∨ a * b = -1 := by
  rcases ha with rfl | rfl <;> rcases hb with rfl | rfl <;> norm_num

theorem pm_sq {a : Int} (ha : a = 1 ∨ a = -1) : a * a = 1 := by
  rcases ha with rfl | rfl <;> norm_num

theorem pm_mul_eq_neg_one {a b : Int} (ha : a = 1 ∨ a = -1)
    (hb : b = 1 ∨ b = -1) (h : a ≠ b) : a * b = -1 := by
  rcases ha with rfl | rfl <;> rcases hb with rfl | rfl <;> simp_all

theorem pm_ne_of_mul_neg_one {a b : Int} (h : a * b = -1) : a ≠ b := by
  intro heq
  rw [heq] at h
  nlinarith [mul_self_nonneg b]

/-- On adjacent nodes of a balanced labelling, the code's branch value
`1 if sign >= 0 else -1` is exactly `σ u * σ v`. -/
theorem psign_signVal_eq {G : Graph} {σ : Nat → Int} (hwf : WF G)
    (hpm : IsPM σ) (hok : ∀ e ∈ G.edges, EdgeOK σ e) {u v : Nat}
    (h : adjP G u v) : psign (signVal G u v) = σ u * σ v := by
  obtain ⟨e, he, hor⟩ := h
  rw [signVal_adj hwf he hor]
  have hedge := hok e he
  unfold EdgeOK at hedge
  by_cases hs : 0 ≤ e.sign.getD 1
  · rw [if_pos hs] at hedge
    have huv : σ u = σ v := by
      rcases hor with ⟨h1, h2⟩ | ⟨h1, h2⟩ <;> subst h1 <;> subst h2
      · exact hedge
      · exact hedge.symm
    unfold psign
    rw [if_pos hs, huv, pm_sq (hpm v)]
  · rw [if_neg hs] at hedge
    have huv : σ u ≠ σ v := by
      rcases hor with ⟨h1, h2⟩ | ⟨h1, h2⟩ <;> subst h1 <;> subst h2
      · exact hedge
      · exact fun hc => hedge hc.symm
    unfold psign
    rw [if_neg hs]
    exact (pm_mul_eq_neg_one (hpm u) (hpm v) huv).symm

theorem scan_some_spec {G : Graph} {u : Nat} {lu : Int} :
    ∀ vs label q label' q',
      scanNeighbors G u lu vs label q = some (label', q') →
      (∀ w ∈ q, w ∈ keysOf label) → (keysOf label).Nodup → q.Nodup →
      ScanSpec G u lu vs label q label' q' := by
  intro vs
  induction vs with
  | nil =>
    intro label q label' q' h hq hkn hqn
    simp only [scanNeighbors, Option.some_inj, Prod.mk.injEq] at h
    obtain ⟨rfl, rfl⟩ := h
    exact ⟨Ext.rfl _, hkn, hqn, hq, by omega, ⟨[], by simp, by simp⟩,
      fun p hp => Or.inl hp, by simp, fun w hw => Or.inl hw⟩
  | cons v vs ih =>
    intro label q label' q' h hq hkn hqn
    simp only [scanNeighbors] at h
    split at h
    · rename_i hv
      have hfresh : v ∉ keysOf label := lookup_eq_none_iff.1 hv
      have hkeys₂ : keysOf ((v, lu * psign (signVal G u v)) :: label) =
          v :: keysOf label := by simp [keysOf]
      have hq₂ : ∀ w ∈ q ++ [v],
          w ∈ keysOf ((v, lu * psign (signVal G u v)) :: label) := by
        intro w hw
        rw [hkeys₂]
        rcases List.mem_append.1 hw with hw | hw
        · exact List.mem_cons_of_mem _ (hq w hw)
        · simp at hw; simp [hw]
      have hkn₂ : (keysOf ((v, lu * psign (signVal G u v)) :: label)).Nodup := by
        rw [hkeys₂]; exact List.nodup_cons.2 ⟨hfresh, hkn⟩
      have hqn₂ : (q ++ [v]).Nodup := by
        refine List.Nodup.append hqn (List.nodup_singleton v) ?_
        intro w hw hw'
        simp at hw'
        exact hfresh (hw' ▸ hq w hw)
      have S := ih _ _ _ _ h hq₂ hkn₂ hqn₂
      have hext : Ext label label' :=
        Ext.comp (Ext.cons_fresh _ hv) S.ext
      refine ⟨hext, S.keysNodup, S.qNodup, S.qKeys, ?_, ?_, ?_, ?_, ?_⟩
      · have := S.count
        simp only [List.length_cons, List.length_append, List.length_nil] at this ⊢
        omega
      · obtain ⟨new₂, hq', hnew₂⟩ := S.newQ
        refine ⟨v :: new₂, by rw [hq']; simp, ?_⟩
        intro w hw
        rcases List.mem_cons.1 hw with rfl | hw
        · exact hfresh
        · intro hwk
          exact hnew₂ w hw (hkeys₂ ▸ List.mem_cons_of_mem _ hwk)
      · intro p hp
        rcases S.entries p hp with hp' | ⟨hp1, hp2⟩
        · rcases List.mem_cons.1 hp' with rfl | hp''
          · exact Or.inr ⟨List.mem_cons_self _ _, rfl⟩
          · exact Or.inl hp''
        · exact Or.inr ⟨List.mem_cons_of_mem _ hp1, hp2⟩
      · intro w hw
        rcases List.mem_cons.1 hw with rfl | hw
        · exact S.ext _ _ (lookup_cons_self _ _ _)
        · exact S.scanned w hw
      · intro w hw
        rcases S.keysQ w hw with hw' | hw'
        · rw [hkeys₂] at hw'
          rcases List.mem_cons.1 hw' with rfl | hw''
          · obtain ⟨new₂, hq', -⟩ := S.newQ
            exact Or.inr (by rw [hq']; simp)
          · exact Or.inl hw''
        · exact Or.inr hw'
    · rename_i lv hv
      split at h
      · rename_i he
        have S := ih _ _ _ _ h hq hkn hqn
        refine ⟨S.ext, S.keysNodup, S.qNodup, S.qKeys, S.count, S.newQ, ?_, ?_, S.keysQ⟩
        · intro p hp
          rcases S.entries p hp with hp' | ⟨hp1, hp2⟩
          · exact Or.inl hp'
          · exact Or.inr ⟨List.mem_cons_of_mem _ hp1, hp2⟩
        · intro w hw
          rcases List.mem_cons.1 hw with rfl | hw
          · exact he ▸ S.ext _ _ hv
          · exact S.scanned w hw
      · cases h

theorem adjP_mem_right {G : Graph} (hwf : WF G) {u v : Nat} (h : adjP G u v) :
    v ∈ nodeIds G := by
  obtain ⟨e, he, hor⟩ := h
  rcases hor with ⟨-, h2⟩ | ⟨h2, -⟩
  · exact h2 ▸ (hwf.2.1 e he).2
  · exact h2 ▸ (hwf.2.1 e he).1

theorem invB_length_le {G : Graph} {label : List (Nat × Int)} {q : List Nat}
    (hB : InvB G label q) : label.length ≤ (nodeIds G).length := by
  have hsub : keysOf label ⊆ nodeIds G := by
    intro a ha
    obtain ⟨v, hv⟩ := mem_keysOf.1 ha
    exact (hB.2.1 _ (lookup_mem hv)).1
  have := (List.subperm_of_subset hB.1 hsub).length_le
  simpa [keysOf] using this

/-- One iteration of the `while q` loop (pop `u`, scan its neighbours)
preserves the invariants and shrinks the measure by one. -/
theorem step_inv {G : Graph} (hwf : WF G) {label label' : List (Nat × Int)}
    {u : Nat} {rest q' : List Nat} {lu : Int}
    (hB : InvB G label (u :: rest)) (hC : InvC G label (u :: rest))
    (hlu : label.lookup u = some lu)
    (hscan : scanNeighbors G u lu (neighbors G u) label rest = some (label', q')) :
    InvB G label' q' ∧ InvC G label' q' ∧ Ext label label' ∧
      label'.length + rest.length = label.length + q'.length := by
  obtain ⟨hkn, hent, hqk, hqn⟩ := hB
  have hrestk : ∀ w ∈ rest, w ∈ keysOf label :=
    fun w hw => hqk w (List.mem_cons_of_mem _ hw)
  have hrestn : rest.Nodup := (List.nodup_cons.1 hqn).2
  have hunq : u ∉ rest := (List.nodup_cons.1 hqn).1
  have S := scan_some_spec _ _ _ _ _ hscan hrestk hkn hrestn
  have hlupm : lu = 1 ∨ lu = -1 := (hent _ (lookup_mem hlu)).2
  refine ⟨⟨S.keysNodup, ?_, S.qKeys, S.qNodup⟩, ?_, S.ext, S.count⟩
  · intro p hp
    rcases S.entries p hp with hp' | ⟨hp1, hp2⟩
    · exact hent p hp'
    · have hadj : adjP G u p.1 := mem_neighbors.1 hp1
      exact ⟨adjP_mem_right hwf hadj, hp2 ▸ pm_mul hlupm (psign_pm _)⟩
  · intro w lw hlw hwq' v' hadj
    by_cases hwu : w = u
    · subst hwu
      have hlu' : label'.lookup w = some lu := S.ext _ _ hlu
      have hlwlu : lw = lu := by rw [hlw] at hlu'; exact Option.some_inj.1 hlu'
      subst hlwlu
      exact S.scanned v' (mem_neighbors.2 hadj)
    · have hwkeys : w ∈ keysOf label' := mem_keysOf.2 ⟨lw, hlw⟩
      rcases S.keysQ w hwkeys with hwold | hwq
      · obtain ⟨lw₀, hlw₀⟩ := mem_keysOf.1 hwold
        have heq : label'.lookup w = some lw₀ := S.ext _ _ hlw₀
        have : lw₀ = lw := by rw [hlw] at heq; exact Option.some_inj.1 heq.symm
        subst this
        have hwrest : w ∉ rest := by
          intro hr
          obtain ⟨new, rfl, -⟩ := S.newQ
          exact hwq' (List.mem_append_left _ hr)
        have hold := hC w lw₀ hlw₀ (by simp [hwu, hwrest]) v' hadj
        exact S.ext _ _ hold
      · exact absurd hwq hwq'

/-- Soundness of the BFS loop: a successful run extends the labelling and
leaves a state in which every labelled node is fully processed. -/
theorem bfsLoop_some {G : Graph} (hwf : WF G) :
    ∀ fuel label q labF, InvB G label q → InvC G label q →
      bfsLoop G fuel label q = some labF →
      Ext label labF ∧ InvB G labF [] ∧ InvC G labF [] := by
  intro fuel
  induction fuel with
  | zero =>
    intro label q labF hB hC h
    cases q with
    | nil =>
      simp only [bfsLoop, Option.some_inj] at h
      subst h
      exact ⟨Ext.rfl _, hB, hC⟩
    | cons u rest => simp [bfsLoop] at h
  | succ fuel ih =>
    intro label q labF hB hC h
    cases q with
    | nil =>
      simp only [bfsLoop, Option.some_inj] at h
      subst h
      exact ⟨Ext.rfl _, hB, hC⟩
    | cons u rest =>
      simp only [bfsLoop] at h
      split at h
      · cases h
      · rename_i lu hlu
        split at h
        · cases h
        · rename_i out label' q' hscan
          obtain ⟨hB', hC', hext, -⟩ := step_inv hwf hB hC hlu hscan
          obtain ⟨hext', hBf, hCf⟩ := ih label' q' labF hB' hC' h
          exact ⟨Ext.comp hext hext', hBf, hCf⟩

/-- Under a balanced assignment `σ`, scanning the neighbours of a labelled
node never reports a mismatch, and σ-consistency of the labels persists. -/
theorem scan_complete {G : Graph} {σ : Nat → Int} (hwf : WF G) (hpm : IsPM σ)
    (hok : ∀ e ∈ G.edges, EdgeOK σ e) {u : Nat} {lu : Int} :
    ∀ vs label q,
      (∀ v ∈ vs, adjP G u v) → label.lookup u = some lu → InvS G σ label →
      ∃ label' q', scanNeighbors G u lu vs label q = some (label', q') ∧
        InvS G σ label' := by
  intro vs
  induction vs with
  | nil => exact fun label q _ _ hS => ⟨label, q, rfl, hS⟩
  | cons v vs ih =>
    intro label q hvs hlu hS
    have hadj : adjP G u v := hvs v (List.mem_cons_self _ _)
    have hps : psign (signVal G u v) = σ u * σ v :=
      psign_signVal_eq hwf hpm hok hadj
    have hsq : ∀ w, σ w * σ w = 1 := fun w => pm_sq (hpm w)
    simp only [scanNeighbors]
    cases hv : label.lookup v with
    | none =>
      have huv : u ≠ v := by rintro rfl; rw [hlu] at hv; cases hv
      have hS₂ : InvS G σ ((v, lu * psign (signVal G u v)) :: label) := by
        intro a b la lb hla hlb hconn
        by_cases hav : a = v <;> by_cases hbv : b = v
        · subst hav; subst hbv
          rw [lookup_cons_self] at hla hlb
          rw [← Option.some_inj.1 hla, ← Option.some_inj.1 hlb]
        · subst hav
          rw [lookup_cons_self] at hla
          rw [lookup_cons_ne _ _ _ _ hbv] at hlb
          have hub : Relation.ReflTransGen (adjP G) u b :=
            Relation.ReflTransGen.head hadj hconn
          have e1 := hS u b lu lb hlu hlb hub
          rw [← Option.some_inj.1 hla, hps]
          linear_combination (lu * σ u) * hsq a + e1
        · subst hbv
          rw [lookup_cons_self] at hlb
          rw [lookup_cons_ne _ _ _ _ hav] at hla
          have hau : Relation.ReflTransGen (adjP G) a u :=
            Relation.ReflTransGen.trans hconn
              (Relation.ReflTransGen.single (adjP_symm hadj))
          have e1 := hS a u la lu hla hlu hau
          rw [← Option.some_inj.1 hlb, hps]
          linear_combination e1 - (lu * σ u) * hsq b
        · rw [lookup_cons_ne _ _ _ _ hav] at hla
          rw [lookup_cons_ne _ _ _ _ hbv] at hlb
          exact hS a b la lb hla hlb hconn
      have hlu₂ : ((v, lu * psign (signVal G u v)) :: label).lookup u = some lu := by
        rw [lookup_cons_ne _ _ _ _ huv]; exact hlu
      obtain ⟨l', q', hrec, hS'⟩ :=
        ih _ (q ++ [v]) (fun w hw => hvs w (List.mem_cons_of_mem _ hw)) hlu₂ hS₂
      exact ⟨l', q', hrec, hS'⟩
    | some lv =>
      have e1 := hS u v lu lv hlu hv (Relation.ReflTransGen.single hadj)
      have hlv : lv = lu * psign (signVal G u v) := by
        rw [hps]
        linear_combination (-(σ v)) * e1 + (-lv) * hsq v
      show ∃ label' q',
        (if lv = lu * psign (signVal G u v) then scanNeighbors G u lu vs label q
          else none) = some (label', q') ∧ InvS G σ label'
      rw [if_pos hlv]
      exact ih _ q (fun w hw => hvs w (List.mem_cons_of_mem _ hw)) hlu hS

/-- Under a balanced assignment, the BFS loop terminates successfully
(given the fuel the source allots) and keeps the labels σ-consistent. -/
theorem bfsLoop_complete {G : Graph} {σ : Nat → Int} (hwf : WF G)
    (hpm : IsPM σ) (hok : ∀ e ∈ G.edges, EdgeOK σ e) :
    ∀ fuel label q,
      InvB G label q → InvC G label q → InvS G σ label →
      (nodeIds G).length - label.length + q.length ≤ fuel →
      ∃ labF, bfsLoop G fuel label q = some labF ∧ InvS G σ labF := by
  intro fuel
  induction fuel with
  | zero =>
    intro label q hB hC hS hfuel
    cases q with
    | nil => exact ⟨label, by simp [bfsLoop], hS⟩
    | cons u rest => simp at hfuel
  | succ fuel ih =>
    intro label q hB hC hS hfuel
    cases q with
    | nil => exact ⟨label, by simp [bfsLoop], hS⟩
    | cons u rest =>
      obtain ⟨lu, hlu⟩ := mem_keysOf.1 (hB.2.2.1 u (List.mem_cons_self _ _))
      obtain ⟨label', q', hscan, hS'⟩ :=
        scan_complete hwf hpm hok (neighbors G u) label rest
          (fun v hv => mem_neighbors.1 hv) hlu hS
      obtain ⟨hB', hC', -, hcount⟩ := step_inv hwf hB hC hlu hscan
      have hlen : label.length ≤ (nodeIds G).length := invB_length_le hB
      have hlen' : label'.length ≤ (nodeIds G).length := invB_length_le hB'
      have hfuel' : (nodeIds G).length - label'.length + q'.length ≤ fuel := by
        simp only [List.length_cons] at hfuel
        omega
      obtain ⟨labF, heq, hSF⟩ := ih label' q' hB' hC' hS' hfuel'
      refine ⟨labF, ?_, hSF⟩
      simp only [bfsLoop, hlu, hscan]
      exact heq

/-- After a completed run (empty queue), the labelled set is closed under
reachability. -/
theorem keys_closed {G : Graph} {label : List (Nat × Int)}
    (hC : InvC G label []) {a c : Nat} (ha : a ∈ keysOf label)
    (h : Relation.ReflTransGen (adjP G) a c) : c ∈ keysOf label := by
  induction h with
  | refl => exact ha
  | tail hab hbc ih =>
    obtain ⟨lb, hlb⟩ := mem_keysOf.1 ih
    exact mem_keysOf.2 ⟨_, hC _ _ hlb (List.not_mem_nil _) _ hbc⟩

theorem seed_invB {G : Graph} {label : List (Nat × Int)} {n : Node}
    (hB : InvB G label []) (hn : n ∈ G.nodes)
    (hnew : label.lookup n.id = none) :
    InvB G ((n.id, 1) :: label) [n.id] := by
  obtain ⟨hkn, hent, -, -⟩ := hB
  have hfresh : n.id ∉ keysOf label := lookup_eq_none_iff.1 hnew
  have hkeys : keysOf ((n.id, 1) :: label) = n.id :: keysOf label := by
    simp [keysOf]
  refine ⟨by rw [hkeys]; exact List.nodup_cons.2 ⟨hfresh, hkn⟩, ?_, ?_, by simp⟩
  · intro p hp
    rcases List.mem_cons.1 hp with rfl | hp'
    · exact ⟨List.mem_map.2 ⟨n, hn, rfl⟩, Or.inl rfl⟩
    · exact hent p hp'
  · intro w hw
    simp at hw
    rw [hw, hkeys]
    exact List.mem_cons_self _ _

theorem seed_invC {G : Graph} {label : List (Nat × Int)} {n : Node}
    (hC : InvC G label []) (hnew : label.lookup n.id = none) :
    InvC G ((n.id, 1) :: label) [n.id] := by
  intro w lw hlw hwq v hadj
  have hwn : w ≠ n.id := by
    intro h
    exact hwq (by simp [h])
  rw [lookup_cons_ne _ _ _ _ hwn] at hlw
  exact Ext.cons_fresh _ hnew _ _ (hC w lw hlw (List.not_mem_nil _) v hadj)

/-- Soundness of the seeding loop: a successful full run produces a fully
processed labelling covering every listed node. -/
theorem balanceLoop_some {G : Graph} (hwf : WF G) :
    ∀ ns label labF,
      (∀ n ∈ ns, n ∈ G.nodes) → InvB G label [] → InvC G label [] →
      balanceLoop G ns label = some labF →
      Ext label labF ∧ InvB G labF [] ∧ InvC G labF [] ∧
        ∀ n ∈ ns, n.id ∈ keysOf labF := by
  intro ns
  induction ns with
  | nil =>
    intro label labF hns hB hC h
    simp only [balanceLoop, Option.some_inj] at h
    subst h
    exact ⟨Ext.rfl _, hB, hC, by simp⟩
  | cons n ns ih =>
    intro label labF hns hB hC h
    simp only [balanceLoop] at h
    split at h
    · rename_i l₀ hn
      obtain ⟨hext, hBf, hCf, hcov⟩ :=
        ih label labF (fun m hm => hns m (List.mem_cons_of_mem _ hm)) hB hC h
      refine ⟨hext, hBf, hCf, ?_⟩
      intro m hm
      rcases List.mem_cons.1 hm with rfl | hm'
      · exact hext.mem_keys (mem_keysOf.2 ⟨l₀, hn⟩)
      · exact hcov m hm'
    · rename_i hn
      split at h
      · cases h
      · rename_i label' hbfs
        have hB₂ := seed_invB hB (hns n (List.mem_cons_self _ _)) hn
        have hC₂ := seed_invC hC hn
        obtain ⟨hext₁, hB', hC'⟩ := bfsLoop_some hwf _ _ _ _ hB₂ hC₂ hbfs
        obtain ⟨hext₂, hBf, hCf, hcov⟩ :=
          ih label' labF (fun m hm => hns m (List.mem_cons_of_mem _ hm)) hB' hC' h
        have hseed : n.id ∈ keysOf labF :=
          hext₂.mem_keys (hext₁.mem_keys (mem_keysOf.2 ⟨1, lookup_cons_self _ _ _⟩))
        refine ⟨Ext.comp (Ext.comp (Ext.cons_fresh 1 hn) hext₁) hext₂, hBf, hCf, ?_⟩
        intro m hm
        rcases List.mem_cons.1 hm with rfl | hm'
        · exact hseed
        · exact hcov m hm'

/-- Under a balanced assignment the seeding loop never fails. -/
theorem balanceLoop_complete {G : Graph} {σ : Nat → Int} (hwf : WF G)
    (hpm : IsPM σ) (hok : ∀ e ∈ G.edges, EdgeOK σ e) :
    ∀ ns label,
      (∀ n ∈ ns, n ∈ G.nodes) → InvB G label [] → InvC G label [] →
      InvS G σ label →
      ∃ labF, balanceLoop G ns label = some labF := by
  intro ns
  induction ns with
  | nil => exact fun label _ _ _ _ => ⟨label, rfl⟩
  | cons n ns ih =>
    intro label hns hB hC hS
    cases hn : label.lookup n.id with
    | some l₀ =>
      have hstep : balanceLoop G (n :: ns) label = balanceLoop G ns label := by
        simp only [balanceLoop, hn]
      rw [hstep]
      exact ih label (fun m hm => hns m (List.mem_cons_of_mem _ hm)) hB hC hS
    | none =>
      have hB₂ := seed_invB hB (hns n (List.mem_cons_self _ _)) hn
      have hC₂ := seed_invC hC hn
      have hS₂ : InvS G σ ((n.id, 1) :: label) := by
        intro a b la lb hla hlb hconn
        by_cases hav : a = n.id <;> by_cases hbv : b = n.id
        · rw [hav, hbv]
          rw [hav, lookup_cons_self] at hla
          rw [hbv, lookup_cons_self] at hlb
          rw [← Option.some_inj.1 hla, ← Option.some_inj.1 hlb]
        · exfalso
          rw [lookup_cons_ne _ _ _ _ hbv] at hlb
          have hbk : b ∈ keysOf label := mem_keysOf.2 ⟨lb, hlb⟩
          have hsymm : Symmetric (Relation.ReflTransGen (adjP G)) :=
            Relation.ReflTransGen.symmetric (fun _ _ h => adjP_symm h)
          have : n.id ∈ keysOf label :=
            keys_closed hC hbk (hav ▸ hsymm hconn)
          exact lookup_eq_none_iff.1 hn this
        · exfalso
          rw [lookup_cons_ne _ _ _ _ hav] at hla
          have hak : a ∈ keysOf label := mem_keysOf.2 ⟨la, hla⟩
          have : n.id ∈ keysOf label :=
            keys_closed hC hak (hbv ▸ hconn)
          exact lookup_eq_none_iff.1 hn this
        · rw [lookup_cons_ne _ _ _ _ hav] at hla
          rw [lookup_cons_ne _ _ _ _ hbv] at hlb
          exact hS a b la lb hla hlb hconn
      have hN : 0 < G.nodes.length := List.length_pos_of_mem (hns n (List.mem_cons_self _ _))
      have hfuel : (nodeIds G).length - ((n.id, 1) :: label).length + [n.id].length ≤
          G.nodes.length := by
        have h1 : (nodeIds G).length = G.nodes.length := by simp [nodeIds]
        rw [h1]
        simp only [List.length_cons, List.length_nil]
        omega
      obtain ⟨label', heq, hS'⟩ :=
        bfsLoop_complete hwf hpm hok G.nodes.length _ _ hB₂ hC₂ hS₂ hfuel
      obtain ⟨-, hB', hC'⟩ := bfsLoop_some hwf _ _ _ _ hB₂ hC₂ heq
      have hstep : balanceLoop G (n :: ns) label = balanceLoop G ns label' := by
        simp only [balanceLoop, hn, heq]
      rw [hstep]
      exact ih label' (fun m hm => hns m (List.mem_cons_of_mem _ hm)) hB' hC' hS'

theorem invB_nil (G : Graph) : InvB G [] [] :=
  ⟨List.nodup_nil, by simp, by simp, List.nodup_nil⟩

theorem invC_nil (G : Graph) : InvC G [] [] := by
  intro u lu hlu
  simp [List.lookup] at hlu

theorem invS_nil (G : Graph) (σ : Nat → Int) : InvS G σ [] := by
  intro u v lu lv hlu
  simp [List.lookup] at hlu

/-- Claim C1: for every well-formed undirected graph with optional integer
edge signs, `balance G` returns `true` iff some `±1` labelling of the nodes
puts equal labels on the endpoints of every non-negatively signed edge and
distinct labels on the endpoints of every negatively signed edge
(components being handled independently by the seeding loop). -/
theorem balance_iff_two_coloring (G : Graph) (hwf : WF G) :
    balance G = true ↔ Balanced G := by
  constructor
  · intro h
    obtain ⟨labF, heq⟩ := Option.isSome_iff_exists.1 h
    obtain ⟨-, hBf, hCf, hcov⟩ :=
      balanceLoop_some hwf G.nodes [] labF (fun _ hn => hn) (invB_nil G)
        (invC_nil G) heq
    refine ⟨fun v => (labF.lookup v).getD 1, ?_, ?_⟩
    · intro v
      cases hv : labF.lookup v with
      | none => simp [hv]
      | some l => simpa [hv] using (hBf.2.1 _ (lookup_mem hv)).2
    · intro e he
      obtain ⟨n, hn, hnid⟩ := List.mem_map.1 (hwf.2.1 e he).1
      have hkey : e.s ∈ keysOf labF := hnid ▸ hcov n hn
      obtain ⟨ls, hls⟩ := mem_keysOf.1 hkey
      have hadj : adjP G e.s e.t := ⟨e, he, Or.inl ⟨rfl, rfl⟩⟩
      have hlt := hCf e.s ls hls (List.not_mem_nil _) e.t hadj
      rw [signVal_adj hwf he (Or.inl ⟨rfl, rfl⟩)] at hlt
      have hlspm : ls = 1 ∨ ls = -1 := (hBf.2.1 _ (lookup_mem hls)).2
      unfold EdgeOK
      by_cases hsgn : 0 ≤ e.sign.getD 1
      · rw [if_pos hsgn]
        have hp : psign (e.sign.getD 1) = 1 := by unfold psign; rw [if_pos hsgn]
        rw [hp, mul_one] at hlt
        simp [hls, hlt]
      · rw [if_neg hsgn]
        have hp : psign (e.sign.getD 1) = -1 := by unfold psign; rw [if_neg hsgn]
        rw [hp] at hlt
        simp only [hls, hlt, Option.getD_some]
        rcases hlspm with rfl | rfl <;> decide
  · rintro ⟨σ, hpm, hok⟩
    obtain ⟨labF, heq⟩ :=
      balanceLoop_complete hwf hpm hok G.nodes [] (fun _ hn => hn) (invB_nil G)
        (invC_nil G) (invS_nil G σ)
    unfold balance
    rw [heq]
    rfl

/-- Claim C10: a missing `sign` attribute reads as `+1` and sign `0` counts
as positive, so whenever every edge's (defaulted) sign is non-negative —
in particular when no edge carries a `sign` attribute at all — `balance`
returns `true`. -/
theorem balance_true_of_nonneg_signs (G : Graph) (hwf : WF G)
    (h : ∀ e ∈ G.edges, 0 ≤ e.sign.getD 1) : balance G = true := by
  have hok : ∀ e ∈ G.edges, EdgeOK (fun _ => 1) e := by
    intro e he
    unfold EdgeOK
    rw [if_pos (h e he)]
  obtain ⟨labF, heq⟩ :=
    balanceLoop_complete hwf (fun _ => Or.inl rfl) hok G.nodes []
      (fun _ hn => hn) (invB_nil G) (invC_nil G) (invS_nil G _)
  unfold balance
  rw [heq]
  rfl

theorem balance_iff_two_coloring_witness :
    WF triangleTwoNeg ∧
      (balance triangleTwoNeg = true ↔ Balanced triangleTwoNeg) :=
  ⟨by decide, balance_iff_two_coloring triangleTwoNeg (by decide)⟩

theorem balance_true_of_nonneg_signs_witness :
    (WF pathNoSign ∧ ∀ e ∈ pathNoSign.edges, 0 ≤ e.sign.getD 1) ∧
      balance pathNoSign = true :=
  ⟨⟨by decide, by decide⟩,
    balance_true_of_nonneg_signs pathNoSign (by decide) (by decide)⟩

/-- Claim C3: `overlap` assigns every stored edge the Jaccard neighbourhood
overlap `|Nu ∩ Nv| / |Nu ∪ Nv|` (with `Nu = N(u)\{v}`, `Nv = N(v)\{u}`,
and value `0` for an empty union), and the value always lies in `[0, 1]`. -/
theorem overlap_jaccard_in_unit_interval (G : Graph) :
    ∀ e ∈ G.edges,
      ((e.s, e.t), overlapVal G e.s e.t) ∈ overlap G ∧
        overlapVal G e.s e.t =
          (if ((nbrSet G e.s \ {e.t}) ∪ (nbrSet G e.t \ {e.s})).card = 0 then 0
            else (((nbrSet G e.s \ {e.t}) ∩ (nbrSet G e.t \ {e.s})).card : ℚ) /
              (((nbrSet G e.s \ {e.t}) ∪ (nbrSet G e.t \ {e.s})).card : ℚ)) ∧
        0 ≤ overlapVal G e.s e.t ∧ overlapVal G e.s e.t ≤ 1 := by
  intro e he
  refine ⟨List.mem_map.2 ⟨e, he, rfl⟩, rfl, ?_, ?_⟩
  · unfold overlapVal
    dsimp only
    split
    · exact le_refl 0
    · positivity
  · unfold overlapVal
    dsimp only
    split
    · exact zero_le_one
    · rename_i hd
      rw [div_le_one (by positivity)]
      exact_mod_cast Finset.card_le_card Finset.inter_subset_union

theorem overlap_jaccard_in_unit_interval_witness :
    (⟨0, 1, none⟩ : Edge) ∈ fourCycle.edges ∧
      ((0, 1), overlapVal fourCycle 0 1) ∈ overlap fourCycle ∧
      0 ≤ overlapVal fourCycle 0 1 ∧ overlapVal fourCycle 0 1 ≤ 1 := by
  have h := overlap_jaccard_in_unit_interval fourCycle ⟨0, 1, none⟩ (by decide)
  exact ⟨by decide, h.1, h.2.2.1, h.2.2.2⟩

/-- Claim C4: `homophily` answers `{'error': 'not enough data'}` exactly
when fewer than two usable edges fall in the same-colour group or fewer
than two in the different-colour group (edges missing a `color` being
skipped), and otherwise returns the `t`/`p`/`d` statistics. -/
theorem homophily_guard (ttest : List Int → List Int → ℚ × ℚ)
    (sqrtQ : ℚ → ℚ) (G : Graph) :
    (homophily ttest sqrtQ G = .insufficient ↔
      (sameDiffLists G).1.length < 2 ∨ (sameDiffLists G).2.length < 2) ∧
    (2 ≤ (sameDiffLists G).1.length → 2 ≤ (sameDiffLists G).2.length →
      ∃ t p d, homophily ttest sqrtQ G = .stats t p d) := by
  unfold homophily
  by_cases h : (sameDiffLists G).1.length < 2 ∨ (sameDiffLists G).2.length < 2
  · rw [if_pos h]
    exact ⟨by simp [h], fun h1 h2 => by omega⟩
  · rw [if_neg h]
    exact ⟨by simp [h], fun _ _ => ⟨_, _, _, rfl⟩⟩

theorem homophily_guard_witness :
    homophily (fun _ _ => (0, 0)) (fun _ => 0) fourCycle ≠ .insufficient ∧
      ∃ t p d, homophily (fun _ _ => (0, 0)) (fun _ => 0) fourCycle =
        .stats t p d := by
  have h := homophily_guard (fun _ _ => (0, 0)) (fun _ => 0) fourCycle
  have h1 : 2 ≤ (sameDiffLists fourCycle).1.length := by decide
  have h2 : 2 ≤ (sameDiffLists fourCycle).2.length := by decide
  refine ⟨fun hc => ?_, h.2 h1 h2⟩
  rcases h.1.1 hc with h' | h' <;> omega

/-- Claim C5: `robustness` returns the mean of the per-trial component
counts — a non-negative value — and returns `0` when there are no trials. -/
theorem robustness_nonneg_mean (G : Graph) (k : Nat)
    (samples : List (List (Nat × Nat)))
    (hs : ∀ rem ∈ samples, validSample G k rem) :
    0 ≤ robustness G k samples ∧
      robustness G k samples =
        (samples.map (fun rem => ((stats (removeEdges G rem)).n : ℚ))).sum /
          (samples.length : ℚ) ∧
      (samples = [] → robustness G k samples = 0) ∧
      ∀ rem ∈ samples, 0 ≤ ((stats (removeEdges G rem)).n : ℚ) := by
  refine ⟨?_, ?_, ?_, fun rem _ => by positivity⟩
  · unfold robustness
    dsimp only
    split
    · exact le_refl 0
    · refine div_nonneg (List.sum_nonneg ?_) (by positivity)
      intro x hx
      obtain ⟨rem, -, rfl⟩ := List.mem_map.1 hx
      positivity
  · unfold robustness
    dsimp only
    split
    · rename_i hemp
      rw [List.isEmpty_iff] at hemp
      simp [hemp]
    · simp [List.length_map]
  · intro h
    subst h
    rfl

theorem robustness_nonneg_mean_witness :
    (∀ rem ∈ [[((0 : Nat), (1 : Nat))]], validSample pathPlusIsolated 1 rem) ∧
      0 ≤ robustness pathPlusIsolated 1 [[(0, 1)]] := by
  refine ⟨by decide, ?_⟩
  exact (robustness_nonneg_mean pathPlusIsolated 1 [[(0, 1)]] (by decide)).1

/-- Claim C9: the failure simulations return the input graph object
untouched — all edge removals happen on the copy — and the statistics pair
of the state-passing form agrees with `simulate_failures`. -/
theorem failure_sims_preserve_input (G : Graph) (k : Nat)
    (rem : List (Nat × Nat)) (samples : List (List (Nat × Nat))) :
    ((simulate_failures_st G k rem).1.nodes = G.nodes ∧
      (simulate_failures_st G k rem).1.edges = G.edges) ∧
    ((robustness_st G k samples).1.nodes = G.nodes ∧
      (robustness_st G k samples).1.edges = G.edges) ∧
    (simulate_failures_st G k rem).2 = simulate_failures G k rem ∧
    (robustness_st G k samples).2 = robustness G k samples :=
  ⟨⟨rfl, rfl⟩, ⟨rfl, rfl⟩, rfl, rfl⟩

theorem sameEnds_symm {e f : Edge} (h : sameEnds e f) : sameEnds f e := by
  unfold sameEnds at *
  tauto

theorem pairMatches_ends_iff {a e : Edge} :
    pairMatches (a.s, a.t) e = true ↔ sameEnds e a := by
  unfold pairMatches sameEnds
  simp

theorem length_filter_not (p : Edge → Bool) (l : List Edge) :
    (l.filter (fun a => !(p a))).length = l.length - l.countP p := by
  induction l with
  | nil => rfl
  | cons a l ih =>
    have hle : l.countP p ≤ l.length := by
      rw [List.countP_eq_length_filter]
      exact List.length_filter_le _ _
    by_cases h : p a
    · rw [List.countP_cons_of_pos _ _ h]
      have hstep : (a :: l).filter (fun x => !(p x)) = l.filter (fun x => !(p x)) := by
        simp [List.filter_cons, h]
      rw [hstep, ih]
      simp only [List.length_cons]
      omega
    · rw [List.countP_cons_of_neg _ _ (by simp [h])]
      have hstep : (a :: l).filter (fun x => !(p x)) =
          a :: l.filter (fun x => !(p x)) := by
        simp [List.filter_cons, h]
      rw [hstep]
      simp only [List.length_cons]
      rw [ih]
      omega

theorem countP_pairMatches_of_mem {l : List Edge}
    (hpw : l.Pairwise (fun e f => ¬ sameEnds e f)) {e₀ : Edge} (he : e₀ ∈ l) :
    l.countP (fun e => pairMatches (e₀.s, e₀.t) e) = 1 := by
  induction l with
  | nil => cases he
  | cons f l ih =>
    obtain ⟨hhead, htail⟩ := List.pairwise_cons.1 hpw
    rcases List.mem_cons.1 he with rfl | he'
    · rw [List.countP_cons_of_pos _ _ (pairMatches_ends_iff.2 (by unfold sameEnds; tauto))]
      have hz : l.countP (fun e => pairMatches (e₀.s, e₀.t) e) = 0 := by
        rw [List.countP_eq_zero]
        intro e hel hme
        exact hhead e hel (sameEnds_symm (pairMatches_ends_iff.1 hme))
      rw [hz]
    · rw [List.countP_cons_of_neg, ih htail he']
      intro hmf
      exact hhead e₀ he' (pairMatches_ends_iff.1 hmf)

/-- Removing a list of distinct existing unordered pairs from a duplicate
free edge list removes exactly one stored edge per pair. -/
theorem removeEdges_filter_length :
    ∀ (rem : List (Nat × Nat)) (l : List Edge),
      l.Pairwise (fun e f => ¬ sameEnds e f) →
      (∀ p ∈ rem, ∃ e ∈ l, p = (e.s, e.t)) →
      rem.Pairwise (fun p q => ¬(p = q ∨ p = (q.2, q.1))) →
      (l.filter (fun e => !(rem.any (fun p => pairMatches p e)))).length =
        l.length - rem.length := by
  intro rem
  induction rem with
  | nil => intro l _ _ _; simp
  | cons p rem ih =>
    intro l hpw hmem hpwr
    obtain ⟨e₀, he₀, hp⟩ := hmem p (List.mem_cons_self _ _)
    have hsplit : l.filter (fun e => !((p :: rem).any (fun p' => pairMatches p' e))) =
        (l.filter (fun e => !(pairMatches p e))).filter
          (fun e => !(rem.any (fun p' => pairMatches p' e))) := by
      rw [List.filter_filter]
      congr 1
      funext e
      simp only [List.any_cons, Bool.not_or]
      rw [Bool.and_comm]
    rw [hsplit]
    have hlen₁ : (l.filter (fun e => !(pairMatches p e))).length = l.length - 1 := by
      rw [length_filter_not]
      rw [hp, countP_pairMatches_of_mem hpw he₀]
    have hpw₁ : (l.filter (fun e => !(pairMatches p e))).Pairwise
        (fun e f => ¬ sameEnds e f) :=
      List.Pairwise.sublist (List.filter_sublist l) hpw
    have hmem₁ : ∀ q ∈ rem, ∃ e ∈ l.filter (fun e => !(pairMatches p e)),
        q = (e.s, e.t) := by
      intro q hq
      obtain ⟨e₁, he₁, hq₁⟩ := hmem q (List.mem_cons_of_mem _ hq)
      refine ⟨e₁, List.mem_filter.2 ⟨he₁, ?_⟩, hq₁⟩
      have hhd := (List.pairwise_cons.1 hpwr).1 q hq
      have hfalse : pairMatches p e₁ = false := by
        cases hpm : pairMatches p e₁
        · rfl
        · exfalso
          unfold pairMatches at hpm
          simp only [Bool.or_eq_true, Bool.and_eq_true, beq_iff_eq] at hpm
          rcases hpm with ⟨h1, h2⟩ | ⟨h1, h2⟩
          · exact hhd (Or.inl (by simp [hq₁, h1, h2]))
          · exact hhd (Or.inr (by simp [hq₁, h1, h2]))
      simp [hfalse]
    have := ih _ hpw₁ hmem₁ (List.pairwise_cons.1 hpwr).2
    rw [this, hlen₁]
    simp only [List.length_cons]
    omega

/-- Claim C6: `simulate_failures` removes exactly `min k |E|` distinct
edges from the copy (the sample size is always valid, even for `k > |E|`)
and returns the before/after statistics pair. -/
theorem simulate_failures_removes_min (G : Graph) (hwf : WF G) (k : Nat)
    (rem : List (Nat × Nat)) (hv : validSample G k rem) :
    simulate_failures G k rem = (stats G, stats (removeEdges G rem)) ∧
      (removeEdges G rem).edges.length = G.edges.length - min k G.edges.length ∧
      min k G.edges.length ≤ G.edges.length := by
  refine ⟨rfl, ?_, Nat.min_le_right _ _⟩
  have h := removeEdges_filter_length rem G.edges hwf.2.2 hv.2.1 hv.2.2
  unfold removeEdges
  simp only
  rw [h, hv.1]

theorem simulate_failures_removes_min_witness :
    (WF pathPlusIsolated ∧ validSample pathPlusIsolated 5 [(0, 1), (1, 2)]) ∧
      (removeEdges pathPlusIsolated [(0, 1), (1, 2)]).edges.length =
        pathPlusIsolated.edges.length - min 5 pathPlusIsolated.edges.length := by
  refine ⟨⟨by decide, by decide⟩, ?_⟩
  exact (simulate_failures_removes_min pathPlusIsolated (by decide) 5
    [(0, 1), (1, 2)] (by decide)).2.1

/-- Claim C2: with the library generator yielding successively finer
partitions (non-decreasing community counts, at least one yield), the
number of communities returned is monotone in the requested count. -/
theorem girvan_newman_partition_monotone (yields : List (List (List Nat)))
    (hne : yields ≠ [])
    (hmono : yields.Pairwise (fun P Q : List (List Nat) => P.length ≤ Q.length))
    {n₁ n₂ : Nat} (h : n₁ ≤ n₂) :
    (girvan_newman_partition yields n₁).length ≤
      (girvan_newman_partition yields n₂).length := by
  have hL : 1 ≤ yields.length := List.length_pos.2 hne
  have hi₁ : min (max (n₁ - 1) 1) yields.length - 1 < yields.length := by omega
  have hi₂ : min (max (n₂ - 1) 1) yields.length - 1 < yields.length := by omega
  have hle : min (max (n₁ - 1) 1) yields.length - 1 ≤
      min (max (n₂ - 1) 1) yields.length - 1 := by omega
  unfold girvan_newman_partition
  rw [List.getD_eq_get _ _ hi₁, List.getD_eq_get _ _ hi₂]
  rcases eq_or_lt_of_le hle with heq | hlt
  · simp only [heq]
    exact le_refl _
  · exact List.pairwise_iff_get.1 hmono _ _ hlt

theorem girvan_newman_partition_monotone_witness :
    (([[[0, 1], [2]], [[0], [1], [2]]] : List (List (List Nat))) ≠ [] ∧
      ([[[0, 1], [2]], [[0], [1], [2]]] : List (List (List Nat))).Pairwise
        (fun P Q => P.length ≤ Q.length) ∧ 2 ≤ 3) ∧
      (girvan_newman_partition [[[0, 1], [2]], [[0], [1], [2]]] 2).length ≤
        (girvan_newman_partition [[[0, 1], [2]], [[0], [1], [2]]] 3).length :=
  ⟨⟨by decide, by decide, by decide⟩,
    girvan_newman_partition_monotone _ (by decide) (by decide) (by decide)⟩

/-- Claim C8: a missing input path raises `FileNotFoundError`; an existing
file is returned as a graph even when it has zero nodes, in which case
only the warning fires. -/
theorem load_graph_missing_vs_empty (pathExists : String → Bool)
    (readGml : String → Graph) (path : String) :
    (pathExists path = false →
      load_graph pathExists readGml path = .fileNotFound path) ∧
    (pathExists path = true →
      load_graph pathExists readGml path =
        .loaded ((readGml path).nodes.length == 0) (readGml path)) ∧
    (pathExists path = true → (readGml path).nodes = [] →
      load_graph pathExists readGml path = .loaded true (readGml path)) := by
  refine ⟨fun h => ?_, fun h => ?_, fun h hempty => ?_⟩
  · simp [load_graph, h]
  · simp [load_graph, h]
  · simp [load_graph, h, hempty]

theorem load_graph_missing_vs_empty_witness :
    ((fun _ : String => false) "g.gml" = false ∧
      load_graph (fun _ => false) (fun _ => ⟨[], []⟩) "g.gml" =
        .fileNotFound "g.gml") ∧
    ((fun _ : String => true) "g.gml" = true ∧
      ((fun _ : String => (⟨[], []⟩ : Graph)) "g.gml").nodes = [] ∧
      load_graph (fun _ => true) (fun _ => ⟨[], []⟩) "g.gml" =
        .loaded true ⟨[], []⟩) :=
  ⟨⟨rfl, (load_graph_missing_vs_empty (fun _ => false) (fun _ => ⟨[], []⟩)
      "g.gml").1 rfl⟩,
    ⟨rfl, rfl, (load_graph_missing_vs_empty (fun _ => true) (fun _ => ⟨[], []⟩)
      "g.gml").2.2 rfl rfl⟩⟩

theorem evLe_trans (a b c : Event) (hab : evLe a b = true)
    (hbc : evLe b c = true) : evLe a c = true := by
  simp only [evLe, decide_eq_true_eq] at *
  exact le_trans hab hbc

theorem evLe_total (a b : Event) : (evLe a b || evLe b a) = true := by
  simp only [evLe, Bool.or_eq_true, decide_eq_true_eq]
  exact le_total _ _

theorem mem_insertEv {e a : Event} :
    ∀ l, a ∈ insertEv e l ↔ a = e ∨ a ∈ l := by
  intro l
  induction l with
  | nil => simp [insertEv]
  | cons f rest ih =>
    unfold insertEv
    split
    · simp
    · simp only [List.mem_cons, ih]
      tauto

theorem insertEv_pairwise (e : Event) :
    ∀ l, l.Pairwise (fun a b => evLe a b = true) →
      (insertEv e l).Pairwise (fun a b => evLe a b = true) := by
  intro l
  induction l with
  | nil => intro _; simp [insertEv]
  | cons f rest ih =>
    intro hl
    obtain ⟨hhead, htail⟩ := List.pairwise_cons.1 hl
    unfold insertEv
    split
    · rename_i hef
      refine List.pairwise_cons.2 ⟨?_, hl⟩
      intro x hx
      rcases List.mem_cons.1 hx with rfl | hx'
      · exact hef
      · exact evLe_trans e f x hef (hhead x hx')
    · rename_i hef
      have hfe : evLe f e = true := by
        have := evLe_total e f
        simp only [Bool.or_eq_true] at this
        tauto
      refine List.pairwise_cons.2 ⟨?_, ih htail⟩
      intro x hx
      rcases (mem_insertEv rest).1 hx with rfl | hx'
      · exact hfe
      · exact hhead x hx'

theorem parse_csv_sorted (rows : List Event) :
    (parse_csv rows).Pairwise (fun a b => evLe a b = true) := by
  unfold parse_csv
  induction rows with
  | nil => simp
  | cons e rest ih => exact insertEv_pairwise e _ ih

theorem evLe_t {a b : Event} (h : evLe a b = true) : a.t ≤ b.t := by
  simp only [evLe, decide_eq_true_eq] at h
  unfold evKey at h
  rcases (Prod.Lex.le_iff _ _).1 h with hlt | ⟨heq, -⟩
  · exact le_of_lt hlt
  · exact le_of_eq heq

theorem foldl_snaps (ev : List Event) :
    ∀ (G : Graph) (acc : List Graph),
      (ev.foldl (fun acc e => (applyEvent acc.1 e, acc.2 ++ [applyEvent acc.1 e]))
        (G, acc)).2 = acc ++ snapList G ev := by
  induction ev with
  | nil => intro G acc; simp [snapList]
  | cons e rest ih =>
    intro G acc
    simp only [List.foldl_cons, snapList]
    rw [ih]
    simp

theorem snapList_length (ev : List Event) :
    ∀ G : Graph, (snapList G ev).length = ev.length := by
  induction ev with
  | nil => intro G; rfl
  | cons e rest ih => intro G; simp [snapList, ih]

theorem snapList_get (ev : List Event) :
    ∀ (G : Graph) (i : Nat), i < (snapList G ev).length →
      (snapList G ev).getD i ⟨[], []⟩ = (ev.take (i + 1)).foldl applyEvent G := by
  induction ev with
  | nil =>
    intro G i hi
    simp [snapList] at hi
  | cons e rest ih =>
    intro G i hi
    cases i with
    | zero => simp [snapList, List.take_succ_cons]
    | succ i =>
      simp only [snapList, List.getD_cons_succ, List.take_succ_cons,
        List.foldl_cons]
      exact ih (applyEvent G e) i (by simpa [snapList] using hi)

/-- Claim C7: `parse_csv` returns the events in non-decreasing timestamp
order, and `temporal` replays them sequentially, appending one snapshot per
event, so the snapshot count equals the parsed event count, which is the
returned value; every snapshot is the fold of the parsed prefix. -/
theorem temporal_replay (G : Graph) (rows : List Event) :
    (parse_csv rows).Pairwise (fun a b => a.t ≤ b.t) ∧
      (temporalSnaps G rows).length = (parse_csv rows).length ∧
      temporal G rows = (parse_csv rows).length ∧
      ∀ i, i < (temporalSnaps G rows).length →
        (temporalSnaps G rows).getD i ⟨[], []⟩ =
          ((parse_csv rows).take (i + 1)).foldl applyEvent G := by
  refine ⟨?_, ?_, rfl, ?_⟩
  · exact (parse_csv_sorted rows).imp (fun h => evLe_t h)
  · unfold temporalSnaps
    rw [foldl_snaps]
    simp [snapList_length]
  · intro i hi
    unfold temporalSnaps at hi ⊢
    rw [foldl_snaps] at hi ⊢
    simp only [List.nil_append] at hi ⊢
    exact snapList_get _ _ _ hi

theorem temporal_replay_witness :
    (0 < (temporalSnaps ⟨[], []⟩ sampleRows).length) ∧
      (temporalSnaps ⟨[], []⟩ sampleRows).getD 0 ⟨[], []⟩ =
        ((parse_csv sampleRows).take 1).foldl applyEvent ⟨[], []⟩ :=
  ⟨by decide, (temporal_replay ⟨[], []⟩ sampleRows).2.2.2 0 (by decide)⟩

end GraphAnalysis
